import Mathlib

/-!
A shallow embedding of `src/SinglyLinkedList.hpp` (template class
`SinglyLinkedList<T>`).  Heap-allocated nodes are modelled by a growing
list of cells (`Mem`), addresses are indices into that list, and a list
object (`SLL`) holds the head address, the raw tail address and the size
counter, exactly as the C++ fields `head`, `tail`, `list_size`.  Every
`throw` site of the source is mapped to an `Except.error` value; since in
the source every throw happens before any mutation, an error result
faithfully means the list object and the memory are left untouched.
Walks over `next` pointers are written with an explicit fuel bound
(`m.nodes.length + 1`); a well-formed chain is acyclic and visits at most
`m.nodes.length` distinct cells, so the fuel is never exhausted on the
states the theorems below talk about.  Null-pointer dereferences, which
are undefined behavior in the source, are mapped to the error `Err.ub`.
-/

namespace SLLC

/-- A heap cell: the C++ `Node` with `data` and the `next` pointer
(`none` = `nullptr`, `some a` = pointer to cell `a`). -/
structure NodeM (T : Type) where
  data : T
  next : Option Nat
deriving Repr, DecidableEq

/-- The heap: cell `a` is `nodes[a]`.  Allocation appends a cell. -/
structure Mem (T : Type) where
  nodes : List (NodeM T)
deriving Repr, DecidableEq

/-- The list object: fields `head`, `tail`, `list_size` of
`SinglyLinkedList`.  Both pointers are addresses into a `Mem`. -/
structure SLL where
  head : Option Nat
  tail : Option Nat
  size : Nat
deriving Repr, DecidableEq

/-- One error value per `throw` site of the source, plus `ub` for the
null-pointer dereferences / non-terminating walks that are undefined
behavior in C++. -/
inductive Err where
  | emptyPopBack      -- "List is empty: cannot pop back."
  | emptyPopFront     -- "List is empty: cannot pop front."
  | emptyAccessHead   -- "List is empty: cannot access head."
  | emptyAccessTail   -- "List is empty: cannot access tail."
  | positionNotFound  -- "Position not found."
  | cannotEraseFirst  -- "Cannot erase before the first element."
  | arraySizeNotPositive -- "Array size must be a positive integer."
  | listExceedsArray  -- "List size exceeds array size."
  | ub                -- undefined behavior in the C++ source
deriving Repr, DecidableEq

/-- The default-constructed list: `head(nullptr), tail(nullptr), list_size(0)`. -/
def emptySLL : SLL := ⟨none, none, 0⟩

/-- The empty heap (fresh program, no allocations yet). -/
def mem0 (T : Type) : Mem T := ⟨[]⟩

/-- `new Node(value)`: appends a fresh cell, returns the new heap and the
fresh address. -/
def alloc (m : Mem T) (nd : NodeM T) : Mem T × Nat :=
  (⟨m.nodes ++ [nd]⟩, m.nodes.length)

/-- Write the `next` field of cell `a` (`p->next = q` in the source).
On an invalid address the heap is returned unchanged; all uses below are
at addresses of live cells. -/
def setNext (m : Mem T) (a : Nat) (nx : Option Nat) : Mem T :=
  match m.nodes[a]? with
  | some nd => ⟨m.nodes.set a ⟨nd.data, nx⟩⟩
  | none => m

/-- `push_back` (source lines 178-189): allocate, link after `tail` (or
become the single node), advance `tail`, increment `list_size`.  The
`tail->next` write needs a live tail; with a null head that branch is not
taken, and a non-null head with null tail is undefined behavior. -/
def push_back (m : Mem T) (s : SLL) (v : T) : Except Err (Mem T × SLL) :=
  let (m1, na) := alloc m ⟨v, none⟩
  match s.head with
  | none => .ok (m1, ⟨some na, some na, s.size + 1⟩)
  | some _ =>
    match s.tail with
    | some t => .ok (setNext m1 t (some na), ⟨s.head, some na, s.size + 1⟩)
    | none => .error .ub

/-- `push_front` (source lines 195-205): allocate; if empty the node is
head and tail, else its `next` is the old head and it becomes head. -/
def push_front (m : Mem T) (s : SLL) (v : T) : Except Err (Mem T × SLL) :=
  match s.head with
  | none =>
    let (m1, na) := alloc m ⟨v, none⟩
    .ok (m1, ⟨some na, some na, s.size + 1⟩)
  | some h =>
    let (m1, na) := alloc m ⟨v, some h⟩
    .ok (m1, ⟨some na, s.tail, s.size + 1⟩)

/-- `pop_front` (source lines 234-243): throw on empty, else
`head = head->next`, clear `tail` if the list became empty, decrement. -/
def pop_front (m : Mem T) (s : SLL) : Except Err (Mem T × SLL) :=
  match s.head with
  | none => .error .emptyPopFront
  | some h =>
    match m.nodes[h]? with
    | none => .error .ub
    | some nd =>
      .ok (m, ⟨nd.next, if nd.next = none then none else s.tail, s.size - 1⟩)

/-- The walk of `pop_back`: `while (current->next.get() != tail)
current = current->next.get();`.  Returns the address whose `next`
equals `target`; running off the chain or out of fuel is the source's
undefined behavior. -/
def walkUntilNextEq (m : Mem T) : Nat → Nat → Option Nat → Option Nat
  | 0, _, _ => none
  | fuel + 1, cur, target =>
    match m.nodes[cur]? with
    | none => none
    | some nd =>
      if nd.next = target then some cur
      else
        match nd.next with
        | some nxt => walkUntilNextEq m fuel nxt target
        | none => none

/-- `pop_back` (source lines 211-228): throw on empty; single node
(`head.get() == tail`) clears both; else walk to the node before `tail`,
cut its `next`, retarget `tail`, decrement. -/
def pop_back (m : Mem T) (s : SLL) : Except Err (Mem T × SLL) :=
  match s.head with
  | none => .error .emptyPopBack
  | some h =>
    if some h = s.tail then .ok (m, ⟨none, none, s.size - 1⟩)
    else
      match walkUntilNextEq m (m.nodes.length + 1) h s.tail with
      | none => .error .ub
      | some c => .ok (setNext m c none, ⟨s.head, some c, s.size - 1⟩)

/-- The walk of `insert_before`:
`while (current && current->next.get() != pos) ...`; a null `current`
is the source's "Position not found." throw. -/
def findPredOf (m : Mem T) : Nat → Option Nat → Option Nat → Except Err Nat
  | 0, _, _ => .error .ub
  | _ + 1, none, _ => .error .positionNotFound
  | fuel + 1, some cur, pos =>
    match m.nodes[cur]? with
    | none => .error .ub
    | some nd =>
      if nd.next = pos then .ok cur
      else findPredOf m fuel nd.next pos

/-- `insert_before` (source lines 251-272).  `pos == head.get()` (note:
on an empty list a null `pos` equals the null head) degenerates to
`push_front`; otherwise walk to the node whose `next` is `pos`, splice
the new node after it, and update `tail` only when the freshly written
`current->next` equals the old `tail` — a comparison of the new node's
address with the old tail's address, kept exactly as written. -/
def insert_before (m : Mem T) (s : SLL) (pos : Option Nat) (v : T) :
    Except Err (Mem T × SLL) :=
  if pos = s.head then push_front m s v
  else
    match findPredOf m (m.nodes.length + 1) s.head pos with
    | .error e => .error e
    | .ok cur =>
      match m.nodes[cur]? with
      | none => .error .ub
      | some nd =>
        let (m1, na) := alloc m ⟨v, nd.next⟩
        let m2 := setNext m1 cur (some na)
        .ok (m2, ⟨s.head, if some na = s.tail then some na else s.tail,
                  s.size + 1⟩)

/-- The walk of `erase_before`: starting with `prev = nullptr`,
`current = head`, loop while `current->next.get() != pos`, advancing and
throwing "Position not found." as soon as the advanced node's `next` is
null (note: this check fires before the loop condition is re-tested, so
it also fires when `pos` itself is null).  Returns `(prev, current)`. -/
def eraseFind (m : Mem T) :
    Nat → Option Nat → Nat → Option Nat → Except Err (Option Nat × Nat)
  | 0, _, _, _ => .error .ub
  | fuel + 1, prev, cur, pos =>
    match m.nodes[cur]? with
    | none => .error .ub
    | some nd =>
      if nd.next = pos then .ok (prev, cur)
      else
        match nd.next with
        | none => .error .ub
        | some nxt =>
          match m.nodes[nxt]? with
          | none => .error .ub
          | some nd2 =>
            if nd2.next = none then .error .positionNotFound
            else eraseFind m fuel (some cur) nxt pos

/-- `erase_before` (source lines 279-299): throw if `pos` is the head
pointer or the list is empty; walk; then the body is guarded by
`if (prev)` — when the walk stops at the head itself (`prev` still
null, i.e. `pos` is the second node) the function silently returns
without erasing anything, exactly as the source does. -/
def erase_before (m : Mem T) (s : SLL) (pos : Option Nat) :
    Except Err (Mem T × SLL) :=
  if pos = s.head ∨ s.head = none then .error .cannotEraseFirst
  else
    match s.head with
    | none => .error .cannotEraseFirst
    | some h =>
      match eraseFind m (m.nodes.length + 1) none h pos with
      | .error e => .error e
      | .ok (none, _) => .ok (m, s)
      | .ok (some p, c) =>
        match m.nodes[c]? with
        | none => .error .ub
        | some ndc =>
          .ok (setNext m p ndc.next,
               ⟨s.head, if ndc.next = none then some p else s.tail,
                s.size - 1⟩)

/-- `clear` (source lines 304-308): reset the three fields.  The cells
are released in C++; the model keeps them in the heap, unreachable. -/
def clear (m : Mem T) (_s : SLL) : Mem T × SLL :=
  (m, ⟨none, none, 0⟩)

/-- `getHead` (source lines 315-320). -/
def getHead (m : Mem T) (s : SLL) : Except Err T :=
  match s.head with
  | none => .error .emptyAccessHead
  | some h =>
    match m.nodes[h]? with
    | none => .error .ub
    | some nd => .ok nd.data

/-- `getTail` (source lines 327-332): reads through the raw `tail`
pointer without consulting `head`. -/
def getTail (m : Mem T) (s : SLL) : Except Err T :=
  match s.tail with
  | none => .error .emptyAccessTail
  | some t =>
    match m.nodes[t]? with
    | none => .error .ub
    | some nd => .ok nd.data

/-- The iterator walk `for (item : *this)`: from `head`, follow `next`
until null, collecting `data`.  Fuel-bounded; any acyclic chain of live
cells has at most `m.nodes.length` nodes, so the fuel suffices. -/
def traverseAux (m : Mem T) : Nat → Option Nat → List T
  | 0, _ => []
  | _ + 1, none => []
  | fuel + 1, some a =>
    match m.nodes[a]? with
    | none => []
    | some nd => nd.data :: traverseAux m fuel nd.next

/-- The element sequence produced by iterating the list. -/
def traverse (m : Mem T) (o : Option Nat) : List T :=
  traverseAux m m.nodes.length o

/-- `to_vector` (source lines 410-417): collect the iteration into a
dynamic array. -/
def to_vector (m : Mem T) (s : SLL) : List T :=
  traverse m s.head

/-- Repeated `push_back`, the loop body shared by the range constructor,
the copy constructor and every `operator=` from a container. -/
def pushAll (m : Mem T) (s : SLL) : List T → Except Err (Mem T × SLL)
  | [] => .ok (m, s)
  | v :: vs =>
    match push_back m s v with
    | .error e => .error e
    | .ok (m', s') => pushAll m' s' vs

/-- `operator=(const std::vector<T>&)` (source lines 370-376): `clear()`
then `push_back` each element.  The target's old fields are discarded. -/
def assignVector (m : Mem T) (s : SLL) (vec : List T) :
    Except Err (Mem T × SLL) :=
  let (m1, s1) := clear m s
  pushAll m1 s1 vec

/-- The copy constructor (source lines 116-125): a fresh list built by
walking `other` from its head and `push_back`-ing each `data` value in
order — only values are copied, every cell of the copy is a fresh
allocation. -/
def copyCtor (m : Mem T) (other : SLL) : Except Err (Mem T × SLL) :=
  pushAll m emptySLL (traverse m other.head)

/-- The move constructor (source lines 153-156): steal the three fields,
null the source's `tail` and zero its `list_size` (the moved-from
`shared_ptr` head becomes null).  No heap cell is touched.  Returns
(destination, moved-from source). -/
def moveCtor (s : SLL) : SLL × SLL :=
  (⟨s.head, s.tail, s.size⟩, ⟨none, none, 0⟩)

/-- Move assignment (source lines 163-172) for distinct objects
(`this != &other`): the destination takes the source's fields and the
source is emptied; the destination's old chain is released.  Returns
(new destination, moved-from source). -/
def moveAssign (_target : SLL) (other : SLL) : SLL × SLL :=
  (⟨other.head, other.tail, other.size⟩, ⟨none, none, 0⟩)

/-- `to_array_pad<N>` (source lines 425-436) on a drained iteration.
`init` is the indeterminate content of the uninitialized
`std::array<T, N> arr;`.  The loop writes slots `0..`, throwing when the
list is longer than `N`; afterwards, if fewer than `N` slots were
written, `arr.fill(T())` overwrites the WHOLE array with
default-constructed values — kept exactly as written. -/
def padWrite (N : Nat) : List T → Nat → List T → Except Err (Nat × List T)
  | [], i, arr => .ok (i, arr)
  | x :: xs, i, arr =>
    if N ≤ i then .error .listExceedsArray
    else padWrite N xs (i + 1) (arr.set i x)

/-- `to_array_pad<N>` itself; `T()` is `default`. -/
def to_array_pad [Inhabited T] (m : Mem T) (s : SLL) (N : Nat)
    (init : List T) : Except Err (List T) :=
  if N < 1 then .error .arraySizeNotPositive
  else
    match padWrite N (traverse m s.head) 0 init with
    | .error e => .error e
    | .ok (i, arr) => .ok (if i < N then List.replicate N default else arr)

/-- Modelled from the spec: the equality comparison (`operator==`).  It
is called by the repository's test (`SinglyLinkedListMWE.cpp` line 38)
but its definition is not among the sources; the spec states "two lists
are equal iff same size and elementwise-equal in traversal order". -/
def listEq [DecidableEq T] (m1 : Mem T) (s1 : SLL) (m2 : Mem T) (s2 : SLL) :
    Bool :=
  decide (s1.size = s2.size) && decide (traverse m1 s1.head = traverse m2 s2.head)

/-- A mutation step, for specifying operation sequences. -/
inductive Op (T : Type) where
  | pushB : T → Op T
  | pushF : T → Op T
  | popF : Op T
  | popB : Op T
  | doClear : Op T
deriving Repr, DecidableEq

/-- Apply one public mutating operation. -/
def applyOp (m : Mem T) (s : SLL) : Op T → Except Err (Mem T × SLL)
  | .pushB v => push_back m s v
  | .pushF v => push_front m s v
  | .popF => pop_front m s
  | .popB => pop_back m s
  | .doClear => .ok (clear m s)

/-- Run a sequence of operations, stopping at the first error. -/
def run (m : Mem T) (s : SLL) : List (Op T) → Except Err (Mem T × SLL)
  | [] => .ok (m, s)
  | op :: ops =>
    match applyOp m s op with
    | .error e => .error e
    | .ok (m', s') => run m' s' ops

/-- Number of element-adding operations in a sequence. -/
def countAdds : List (Op T) → Nat
  | [] => 0
  | .pushB _ :: ops => countAdds ops + 1
  | .pushF _ :: ops => countAdds ops + 1
  | .popF :: ops => countAdds ops
  | .popB :: ops => countAdds ops
  | .doClear :: ops => countAdds ops

/-- Number of element-removing operations in a sequence. -/
def countRemoves : List (Op T) → Nat
  | [] => 0
  | .popF :: ops => countRemoves ops + 1
  | .popB :: ops => countRemoves ops + 1
  | .pushB _ :: ops => countRemoves ops
  | .pushF _ :: ops => countRemoves ops
  | .doClear :: ops => countRemoves ops

/-- The sequence contains no `clear`. -/
def noClear : List (Op T) → Prop := fun ops => ∀ op ∈ ops, op ≠ Op.doClear

/-- The abstract effect of an operation sequence on the element list;
`none` exactly when a removal hits an empty list. -/
def absRun : List (Op T) → List T → Option (List T)
  | [], l => some l
  | .pushB v :: ops, l => absRun ops (l ++ [v])
  | .pushF v :: ops, l => absRun ops (v :: l)
  | .popF :: ops, l =>
    match l with
    | [] => none
    | _ :: l' => absRun ops l'
  | .popB :: ops, l =>
    match l with
    | [] => none
    | _ => absRun ops l.dropLast
  | .doClear :: ops, _ => absRun ops []

/-! ## Well-formed chains

`Chain m o addrs l` says: starting at pointer `o`, following `next`
visits exactly the cells at `addrs`, carrying the values `l`, and ends
at a null `next`.  This is the spec's reachability notion; a list state
satisfies the structural invariants iff its three fields are related by
some chain. -/

variable {T : Type} {m m' : Mem T} {o : Option Nat}
variable {addrs addrs1 addrs2 : List Nat} {l l1 l2 : List T} {t : Nat}
variable {s : SLL}

inductive Chain (m : Mem T) : Option Nat → List Nat → List T → Prop where
  | nil : Chain m none [] []
  | cons {a : Nat} {nd : NodeM T} {addrs : List Nat} {l : List T} :
      m.nodes[a]? = some nd → Chain m nd.next addrs l →
      Chain m (some a) (a :: addrs) (nd.data :: l)

/-- The structural invariants of the spec (§3): `size == 0` iff `head`
is none iff `tail` is none; `tail` is reachable from `head` by `next`
in exactly `size - 1` steps; the chain terminates, and `tail.next` is
none (a `Chain` ends at a null `next` by construction). -/
def structuralInvariant (m : Mem T) (s : SLL) : Prop :=
  (s.size = 0 ↔ s.head = none) ∧ (s.size = 0 ↔ s.tail = none) ∧
  ∃ addrs l, Chain m s.head addrs l ∧ addrs.length = s.size ∧
    addrs.getLast? = s.tail

/-- Abstraction relation: the list object `s` is a well-formed view of
the element list `l` through the cells `addrs`. -/
def WfL (m : Mem T) (s : SLL) (addrs : List Nat) (l : List T) : Prop :=
  Chain m s.head addrs l ∧ s.size = l.length ∧ s.tail = addrs.getLast?

/-- Footprint of an operation run on a list whose chain occupies
`addrs`, turning heap `m` into `m'` with chain `addrs'`: cells outside
the chain are untouched, the new chain only uses old chain's cells and
fresh cells, and the heap only grows. -/
structure OpSpec (m : Mem T) (addrs : List Nat) (m' : Mem T)
    (addrs' : List Nat) : Prop where
  frame : ∀ i, i ∉ addrs → i < m.nodes.length → m'.nodes[i]? = m.nodes[i]?
  sub : ∀ j ∈ addrs', j ∈ addrs ∨ m.nodes.length ≤ j
  grow : m.nodes.length ≤ m'.nodes.length

/-- Conclusion of claim C6: converting `s` to a dynamic array with
`to_vector` and assigning that array to the list `s0` (in heap `m0`)
succeeds and yields a list with the same elements in traversal order
and the same size as `s`. -/
def roundTripConcl (m : Mem T) (s : SLL) (m0 : Mem T) (s0 : SLL) : Prop :=
  ∃ m1 t, assignVector m0 s0 (to_vector m s) = .ok (m1, t) ∧
    traverse m1 t.head = traverse m s.head ∧ t.size = s.size

/-- Conclusion of claim C7 for one moved-to/moved-from pair `(d, s')`
produced from source `s` (with chain `addrs`, elements `l`, heap `m`):
the destination holds exactly the source's old chain — same cells, so
nothing was duplicated or destroyed, and the heap is untouched — and
the moved-from source is empty. -/
def moveConcl (m : Mem T) (addrs : List Nat) (l : List T) (s : SLL)
    (p : SLL × SLL) : Prop :=
  p.1 = ⟨s.head, s.tail, s.size⟩ ∧ WfL m p.1 addrs l ∧
  traverse m p.1.head = traverse m s.head ∧ p.1.size = s.size ∧
  p.2.head = none ∧ p.2.tail = none ∧ p.2.size = 0

/-- Conclusion of claim C8: the copy `b` of `a` (copy heap `m1`) has
the same size and elements; and after any successful mutation run on
`b` ending in heap `m2`, the original `a` still has its chain `aAddrs`
with elements `al` intact and traverses to the same sequence as
before. -/
def copyConcl (m : Mem T) (a : SLL) (aAddrs : List Nat) (al : List T)
    (m1 : Mem T) (b : SLL) (m2 : Mem T) : Prop :=
  b.size = a.size ∧ traverse m1 b.head = traverse m a.head ∧
  WfL m2 a aAddrs al ∧ traverse m2 a.head = traverse m a.head

/-- Conclusion of claim C9 (general part), for a final state
`(m', s')` of an operation sequence `ops`: the size is the number of
adds minus the number of removes, equals the traversal length, and
`getHead`/`getTail` return the first/last element of the traversal. -/
def runConcl (ops : List (Op T)) (m' : Mem T) (s' : SLL) : Prop :=
  countRemoves ops ≤ countAdds ops ∧
  s'.size = countAdds ops - countRemoves ops ∧
  s'.size = (traverse m' s'.head).length ∧
  ∀ hl : traverse m' s'.head ≠ [],
    getHead m' s' = .ok ((traverse m' s'.head).head hl) ∧
    getTail m' s' = .ok ((traverse m' s'.head).getLast hl)

/-- Conclusion of claim C10: `insert_before` with a null position on a
nonempty list completes normally (no PositionNotFound), appends the
value after the last chain node and increments the size, but leaves
`tail` pointing at the previous last node, so `getTail` still returns
the old last element. -/
def insertNullConcl (m : Mem T) (s : SLL) (l : List T) (hl : l ≠ [])
    (v : T) : Prop :=
  ∃ m' s', insert_before m s none v = .ok (m', s') ∧
    s'.size = s.size + 1 ∧ s'.tail = s.tail ∧ s'.head = s.head ∧
    traverse m' s'.head = l ++ [v] ∧
    getTail m' s' = .ok (l.getLast hl)

theorem chain_length (h : Chain m o addrs l) : addrs.length = l.length := by
  induction h with
  | nil => rfl
  | cons hget hc ih => simpa using ih

theorem chain_det (h1 : Chain m o addrs1 l1) (h2 : Chain m o addrs2 l2) :
    addrs1 = addrs2 ∧ l1 = l2 := by
  induction h1 generalizing addrs2 l2 with
  | nil => cases h2; exact ⟨rfl, rfl⟩
  | cons hget hc ih =>
    cases h2 with
    | cons hget2 hc2 =>
      rw [hget] at hget2
      injection hget2 with hnd
      subst hnd
      obtain ⟨ha, hl⟩ := ih hc2
      exact ⟨by rw [ha], by rw [hl]⟩

theorem chain_valid (h : Chain m o addrs l) :
    ∀ a ∈ addrs, a < m.nodes.length := by
  induction h with
  | nil => simp
  | cons hget hc ih =>
    intro b hb
    rcases List.mem_cons.mp hb with rfl | hb
    · by_contra hlt
      rw [List.getElem?_eq_none (Nat.le_of_not_lt hlt)] at hget
      exact Option.noConfusion hget
    · exact ih b hb

theorem chain_frame (h : Chain m o addrs l)
    (hagree : ∀ a ∈ addrs, m'.nodes[a]? = m.nodes[a]?) :
    Chain m' o addrs l := by
  induction h with
  | nil => exact .nil
  | cons hget hc ih =>
    exact .cons ((hagree _ (by simp)).trans hget)
      (ih fun b hb => hagree b (by simp [hb]))

/-- Every member of a chain starts a (not longer) suffix chain. -/
theorem chain_mem (h : Chain m o addrs l) :
    ∀ a ∈ addrs, ∃ tl ll, Chain m (some a) (a :: tl) ll ∧
      (a :: tl).length ≤ addrs.length := by
  induction h with
  | nil => simp
  | cons hget hc ih =>
    intro b hb
    rcases List.mem_cons.mp hb with rfl | hb
    · exact ⟨_, _, .cons hget hc, le_refl _⟩
    · obtain ⟨tl, ll, hch, hlen⟩ := ih b hb
      exact ⟨tl, ll, hch, by simpa using Nat.le_succ_of_le hlen⟩

theorem chain_nodup (h : Chain m o addrs l) : addrs.Nodup := by
  induction h with
  | nil => exact List.nodup_nil
  | cons hget hc ih =>
    refine List.nodup_cons.mpr ⟨?_, ih⟩
    intro hmem
    obtain ⟨tl, ll, hch, hlen⟩ := chain_mem hc _ hmem
    obtain ⟨ha, _⟩ := chain_det hch (.cons hget hc)
    injection ha with _ htl
    rw [htl] at hlen
    simp at hlen

theorem chain_length_le (h : Chain m o addrs l) :
    addrs.length ≤ m.nodes.length := by
  have hsub : addrs.toFinset ⊆ Finset.range m.nodes.length := by
    intro a ha
    simp only [Finset.mem_range]
    exact chain_valid h a (by simpa using ha)
  calc addrs.length = addrs.toFinset.card :=
        (List.toFinset_card_of_nodup (chain_nodup h)).symm
    _ ≤ (Finset.range m.nodes.length).card := Finset.card_le_card hsub
    _ = m.nodes.length := Finset.card_range _

theorem traverseAux_of_chain (h : Chain m o addrs l) :
    ∀ fuel, addrs.length ≤ fuel → traverseAux m fuel o = l := by
  induction h with
  | nil => intro fuel _; cases fuel <;> simp [traverseAux]
  | cons hget hc ih =>
    intro fuel hf
    cases fuel with
    | zero => simp at hf
    | succ f => simp [traverseAux, hget, ih f (by simpa using hf)]

theorem traverse_of_chain (h : Chain m o addrs l) : traverse m o = l :=
  traverseAux_of_chain h _ (chain_length_le h)

theorem chain_nil_inv (h : Chain m o [] l) : o = none ∧ l = [] := by
  cases h; exact ⟨rfl, rfl⟩

theorem chain_getLast (h : Chain m o addrs l) (ht : addrs.getLast? = some t) :
    ∃ nd : NodeM T, m.nodes[t]? = some nd ∧ nd.next = none ∧
      l.getLast? = some nd.data := by
  induction h with
  | nil => simp at ht
  | cons hget hc ih =>
    rename_i a nd addrs' l'
    cases addrs' with
    | nil =>
      obtain ⟨hnext, hl'⟩ := chain_nil_inv hc
      have hta : a = t := by simpa using ht
      subst hta
      exact ⟨nd, hget, hnext, by simp [hl']⟩
    | cons b rest =>
      have ht' : (b :: rest).getLast? = some t := by
        simpa [List.getLast?_cons_cons] using ht
      obtain ⟨nd', hg', hn', hl'⟩ := ih ht'
      have hlne : l' ≠ [] := by
        have := chain_length hc
        intro hsig; simp [hsig] at this
      cases l' with
      | nil => exact absurd rfl hlne
      | cons y ys =>
        exact ⟨nd', hg', hn', by simpa [List.getLast?_cons_cons] using hl'⟩

/-! ## Heap access lemmas and the footprint of one operation -/

theorem setNext_get_self {a : Nat} {nd : NodeM T} {nx : Option Nat}
    (hget : m.nodes[a]? = some nd) :
    (setNext m a nx).nodes[a]? = some ⟨nd.data, nx⟩ := by
  have hlt : a < m.nodes.length := by
    by_contra hlt
    rw [List.getElem?_eq_none (Nat.le_of_not_lt hlt)] at hget
    exact Option.noConfusion hget
  simp [setNext, hget, List.getElem?_set_self hlt]

theorem setNext_get_ne {a i : Nat} {nx : Option Nat} (hne : i ≠ a) :
    (setNext m a nx).nodes[i]? = m.nodes[i]? := by
  unfold setNext
  cases m.nodes[a]? <;> simp [List.getElem?_set_ne (Ne.symm hne)]

theorem setNext_length {a : Nat} {nx : Option Nat} :
    (setNext m a nx).nodes.length = m.nodes.length := by
  unfold setNext
  cases m.nodes[a]? <;> simp

theorem alloc_get_old {nd : NodeM T} {i : Nat} (h : i < m.nodes.length) :
    (alloc m nd).1.nodes[i]? = m.nodes[i]? := by
  simp [alloc, List.getElem?_append_left h]

theorem alloc_get_new {nd : NodeM T} :
    (alloc m nd).1.nodes[m.nodes.length]? = some nd := by
  simp [alloc]

theorem OpSpec.refl (m : Mem T) (addrs : List Nat) : OpSpec m addrs m addrs :=
  ⟨fun _ _ _ => rfl, fun _ hj => Or.inl hj, le_refl _⟩

theorem OpSpec.trans {m1 m2 m3 : Mem T} {a1 a2 a3 : List Nat}
    (h12 : OpSpec m1 a1 m2 a2) (h23 : OpSpec m2 a2 m3 a3) :
    OpSpec m1 a1 m3 a3 := by
  refine ⟨?_, ?_, le_trans h12.grow h23.grow⟩
  · intro i hi hlt
    have hi2 : i ∉ a2 := by
      intro hmem
      rcases h12.sub i hmem with h | h
      · exact hi h
      · omega
    exact (h23.frame i hi2 (lt_of_lt_of_le hlt h12.grow)).trans
      (h12.frame i hi hlt)
  · intro j hj
    rcases h23.sub j hj with h | h
    · exact h12.sub j h
    · exact Or.inr (le_trans h12.grow h)

/-- Append a fresh node at the end of a chain after rewriting the old
last cell's `next` to point at it (the shape of `push_back` and of
`insert_before` with a null position). -/
theorem chain_snoc {na : Nat} {v : T} (h : Chain m o addrs l)
    (ht : addrs.getLast? = some t) (hna : na ∉ addrs)
    (hkeep : ∀ a ∈ addrs, a ≠ t → m'.nodes[a]? = m.nodes[a]?)
    (hlast : ∀ nd : NodeM T, m.nodes[t]? = some nd →
      m'.nodes[t]? = some ⟨nd.data, some na⟩)
    (hnew : m'.nodes[na]? = some ⟨v, none⟩) :
    Chain m' o (addrs ++ [na]) (l ++ [v]) := by
  induction h with
  | nil => simp at ht
  | cons hget hc ih =>
    rename_i a nd addrs' l'
    cases addrs' with
    | nil =>
      obtain ⟨hnext, hl'⟩ := chain_nil_inv hc
      have hta : a = t := by simpa using ht
      subst hta
      subst hl'
      have htwo : Chain m' (some a) [a, na] [nd.data, v] :=
        @Chain.cons T m' a ⟨nd.data, some na⟩ [na] [v] (hlast nd hget)
          (@Chain.cons T m' na ⟨v, none⟩ [] [] hnew .nil)
      simpa using htwo
    | cons b rest =>
      have ht' : (b :: rest).getLast? = some t := by
        simpa [List.getLast?_cons_cons] using ht
      have hat : a ≠ t := by
        intro he
        have hmem : t ∈ b :: rest := List.mem_of_mem_getLast? ht'
        have hnd := chain_nodup (Chain.cons hget hc)
        rw [he] at hnd
        exact (List.nodup_cons.mp hnd).1 hmem
      have hna' : na ∉ b :: rest := fun hm => hna (by simp [hm])
      have hkeep' : ∀ x ∈ b :: rest, x ≠ t → m'.nodes[x]? = m.nodes[x]? :=
        fun x hx hxt => hkeep x (by simp [hx]) hxt
      have hga : m'.nodes[a]? = some nd :=
        (hkeep a (by simp) hat).trans hget
      exact .cons hga (ih ht' hna' hkeep')

/-- Drop the last node of a chain of length at least two after
rewriting the second-to-last cell's `next` to null (the shape of
`pop_back` on a multi-node list). -/
theorem chain_unsnoc {p : Nat} (h : Chain m o addrs l)
    (hp : addrs.dropLast.getLast? = some p)
    (hkeep : ∀ a ∈ addrs.dropLast, a ≠ p → m'.nodes[a]? = m.nodes[a]?)
    (hlastp : ∀ nd : NodeM T, m.nodes[p]? = some nd →
      m'.nodes[p]? = some ⟨nd.data, none⟩) :
    Chain m' o addrs.dropLast l.dropLast := by
  induction h with
  | nil => simp at hp
  | cons hget hc ih =>
    rename_i a nd addrs' l'
    cases addrs' with
    | nil => simp at hp
    | cons b rest =>
      have hlen := chain_length hc
      cases l' with
      | nil => simp at hlen
      | cons x xs =>
        cases rest with
        | nil =>
          -- two cells: a then b; p = a
          cases xs with
          | cons _ _ => simp at hlen
          | nil =>
            have hpa : a = p := by simpa using hp
            subst hpa
            simpa using Chain.cons (hlastp nd hget) Chain.nil
        | cons c rest' =>
          -- at least three cells; recurse
          have hbne : (b :: c :: rest').dropLast ≠ [] := by simp
          have hp' : (b :: c :: rest').dropLast.getLast? = some p := by
            rcases he : (b :: c :: rest').dropLast with _ | ⟨y, ys⟩
            · exact absurd he hbne
            · rw [show ((a :: b :: c :: rest').dropLast) =
                    a :: (b :: c :: rest').dropLast by simp, he,
                  List.getLast?_cons_cons] at hp
              exact hp
          have hap : a ≠ p := by
            intro he
            have hmem : p ∈ (b :: c :: rest').dropLast :=
              List.mem_of_mem_getLast? hp'
            have hmem' : p ∈ b :: c :: rest' :=
              List.dropLast_subset _ hmem
            have hnd := chain_nodup (Chain.cons hget hc)
            rw [he] at hnd
            exact (List.nodup_cons.mp hnd).1 hmem'
          have hkeep' : ∀ y ∈ (b :: c :: rest').dropLast, y ≠ p →
              m'.nodes[y]? = m.nodes[y]? := by
            intro y hy hyp
            refine hkeep y ?_ hyp
            rw [show ((a :: b :: c :: rest').dropLast) =
                  a :: (b :: c :: rest').dropLast by simp]
            simp only [List.mem_cons]
            exact Or.inr hy
          have hga : m'.nodes[a]? = some nd := by
            refine (hkeep a ?_ hap).trans hget
            rw [show ((a :: b :: c :: rest').dropLast) =
                  a :: (b :: c :: rest').dropLast by simp]
            simp
          have := Chain.cons (m := m') hga (ih hp' hkeep')
          simpa using this

/-! ## Walk lemmas: the pointer walks of `pop_back` and `insert_before`
reach the second-to-last / last node of a well-formed chain. -/

theorem chain_none_inv (h : Chain m none addrs l) : addrs = [] ∧ l = [] := by
  cases h; exact ⟨rfl, rfl⟩

theorem chain_cons_head {b : Nat} {bs : List Nat} (h : Chain m o (b :: bs) l) :
    o = some b := by
  cases h; rfl

theorem cons_getLast?_some (a : Nat) (l : List Nat) :
    ∃ t, (a :: l).getLast? = some t :=
  ⟨(a :: l).getLast (by simp), List.getLast?_eq_getLast _ (by simp)⟩

/-- The `pop_back` walk, started at the head of a chain of at least two
cells whose last cell is `t` and second-to-last is `p`, stops at `p`. -/
theorem walk_finds_penult {a p : Nat} {rest : List Nat}
    (h : Chain m (some a) (a :: rest) l)
    (hp : (a :: rest).dropLast.getLast? = some p)
    (ht : (a :: rest).getLast? = some t) (hrest : rest ≠ []) :
    ∀ fuel, rest.length < fuel → walkUntilNextEq m fuel a (some t) = some p := by
  induction rest generalizing a l with
  | nil => exact absurd rfl hrest
  | cons b rest' ih =>
    intro fuel hfuel
    cases h with
    | cons hget hc =>
      rename_i nd l'
      have hnb : nd.next = some b := chain_cons_head hc
      cases fuel with
      | zero => omega
      | succ f =>
        cases rest' with
        | nil =>
          -- exactly two cells [a, b]: t = b, p = a
          have htb : t = b := by simpa using ht.symm
          have hpa : p = a := by simpa using hp.symm
          subst htb; subst hpa
          simp [walkUntilNextEq, hget, hnb]
        | cons c rest'' =>
          have hnd := chain_nodup (Chain.cons hget hc)
          have ht' : (b :: c :: rest'').getLast? = some t := by
            simpa [List.getLast?_cons_cons] using ht
          have hbt : b ≠ t := by
            intro he
            have : t ∈ c :: rest'' := by
              have hmem := List.mem_of_mem_getLast? ht'
              rcases List.mem_cons.mp hmem with rfl | hm
              · have : t ∈ c :: rest'' := by
                  have h2 : (c :: rest'').getLast? = some t := by
                    simpa [List.getLast?_cons_cons] using ht'
                  exact List.mem_of_mem_getLast? h2
                exact this
              · exact hm
            have hb : b ∉ c :: rest'' :=
              (List.nodup_cons.mp (List.nodup_cons.mp hnd).2).1
            rw [he] at hb
            exact hb this
          have hp' : (b :: c :: rest'').dropLast.getLast? = some p := by
            rcases he : (b :: c :: rest'').dropLast with _ | ⟨y, ys⟩
            · simp at he
            · rw [show ((a :: b :: c :: rest'').dropLast) =
                    a :: (b :: c :: rest'').dropLast by simp, he,
                  List.getLast?_cons_cons] at hp
              exact hp
          have hcb : Chain m (some b) (b :: c :: rest'') l' := by
            rw [hnb] at hc; exact hc
          have := ih hcb hp' ht' (by simp) f (by simpa using Nat.lt_of_succ_lt_succ hfuel)
          simp only [walkUntilNextEq, hget]
          rw [if_neg (by simp [hnb, hbt]), hnb]
          exact this

/-- The `insert_before` walk with a null position, started at the head
of a well-formed chain, stops at the last cell. -/
theorem findPredOf_none_spec {a : Nat} {rest : List Nat}
    (h : Chain m (some a) (a :: rest) l)
    (ht : (a :: rest).getLast? = some t) :
    ∀ fuel, rest.length < fuel → findPredOf m fuel (some a) none = .ok t := by
  induction rest generalizing a l with
  | nil =>
    intro fuel hfuel
    cases h with
    | cons hget hc =>
      obtain ⟨hnext, -⟩ := chain_nil_inv hc
      have hta : t = a := by simpa using ht.symm
      subst hta
      cases fuel with
      | zero => omega
      | succ f => simp [findPredOf, hget, hnext]
  | cons b rest' ih =>
    intro fuel hfuel
    cases h with
    | cons hget hc =>
      rename_i nd l'
      have hnb : nd.next = some b := chain_cons_head hc
      have ht' : (b :: rest').getLast? = some t := by
        simpa [List.getLast?_cons_cons] using ht
      have hcb : Chain m (some b) (b :: rest') l' := by
        rw [hnb] at hc; exact hc
      cases fuel with
      | zero => omega
      | succ f =>
        have := ih hcb ht' f (by simpa using Nat.lt_of_succ_lt_succ hfuel)
        simp only [findPredOf, hget]
        rw [if_neg (by simp [hnb]), hnb]
        exact this

/-! ## Refinement: each public operation, run on a well-formed list,
produces a well-formed list related by the expected abstract list
operation, touching only its own chain's cells plus fresh ones. -/

theorem chain_singleton {na : Nat} {v : T} (h : m.nodes[na]? = some ⟨v, none⟩) :
    Chain m (some na) [na] [v] :=
  @Chain.cons T m na ⟨v, none⟩ [] [] h .nil

theorem pushBack_spec (hw : WfL m s addrs l) (v : T) :
    ∃ m' s', push_back m s v = .ok (m', s') ∧
      WfL m' s' (addrs ++ [m.nodes.length]) (l ++ [v]) ∧
      OpSpec m addrs m' (addrs ++ [m.nodes.length]) := by
  obtain ⟨hch, hsz, htl⟩ := hw
  rcases hh : s.head with _ | h
  · rw [hh] at hch
    obtain ⟨ha, hl⟩ := chain_none_inv hch
    subst ha; subst hl
    refine ⟨⟨m.nodes ++ [⟨v, none⟩]⟩,
      ⟨some m.nodes.length, some m.nodes.length, s.size + 1⟩, ?_, ?_, ?_⟩
    · simp [push_back, alloc, hh]
    · refine ⟨?_, ?_, ?_⟩
      · have hg : (⟨m.nodes ++ [⟨v, none⟩]⟩ : Mem T).nodes[m.nodes.length]? =
            some ⟨v, none⟩ := by simp [List.getElem?_concat_length]
        simpa using chain_singleton hg
      · simpa using hsz
      · simp
    · exact ⟨fun i _ hi => List.getElem?_append_left hi,
        fun j hj => Or.inr (by simp at hj; omega), by simp⟩
  · rw [hh] at hch
    cases hch with
    | cons hget hc =>
      rename_i nd addrs' l'
      obtain ⟨t, hgl⟩ := cons_getLast?_some h addrs'
      rw [hgl] at htl
      have htmem : t ∈ h :: addrs' := List.mem_of_mem_getLast? hgl
      have htlt : t < m.nodes.length :=
        chain_valid (Chain.cons hget hc) t htmem
      have hnamem : m.nodes.length ∉ h :: addrs' := fun hm =>
        absurd (chain_valid (Chain.cons hget hc) _ hm) (by omega)
      set na := m.nodes.length with hna
      set m1 : Mem T := ⟨m.nodes ++ [⟨v, none⟩]⟩ with hm1
      set m2 := setNext m1 t (some na) with hm2
      have hget1 : ∀ i, i < m.nodes.length → m1.nodes[i]? = m.nodes[i]? :=
        fun i hi => List.getElem?_append_left hi
      have hget2 : ∀ i, i ≠ t → i < m.nodes.length → m2.nodes[i]? = m.nodes[i]? :=
        fun i hne hi => (setNext_get_ne hne).trans (hget1 i hi)
      refine ⟨m2, ⟨s.head, some na, s.size + 1⟩, ?_, ?_, ?_⟩
      · simp only [push_back, alloc, hh, htl]
      · refine ⟨?_, ?_, ?_⟩
        · rw [hh]
          refine chain_snoc (Chain.cons hget hc) hgl hnamem ?_ ?_ ?_
          · exact fun x hx hxt => hget2 x hxt (chain_valid (Chain.cons hget hc) x hx)
          · intro ndt hndt
            have h1 : m1.nodes[t]? = some ndt := (hget1 t htlt).trans hndt
            exact setNext_get_self h1
          · have h1 : m1.nodes[na]? = some ⟨v, none⟩ := by
              simp [hm1, hna, List.getElem?_concat_length]
            refine (setNext_get_ne ?_).trans h1
            omega
        · simpa using hsz
        · exact (List.getLast?_concat _).symm
      · refine ⟨?_, ?_, ?_⟩
        · exact fun i hi hlt => hget2 i (fun he => hi (he ▸ htmem)) hlt
        · intro j hj
          rcases List.mem_append.mp hj with hj | hj
          · exact Or.inl hj
          · exact Or.inr (by simp at hj; omega)
        · have : m2.nodes.length = m1.nodes.length := setNext_length
          simp [this, hm1]

theorem pushFront_spec (hw : WfL m s addrs l) (v : T) :
    ∃ m' s', push_front m s v = .ok (m', s') ∧
      WfL m' s' (m.nodes.length :: addrs) (v :: l) ∧
      OpSpec m addrs m' (m.nodes.length :: addrs) := by
  obtain ⟨hch, hsz, htl⟩ := hw
  rcases hh : s.head with _ | h
  · rw [hh] at hch
    obtain ⟨ha, hl⟩ := chain_none_inv hch
    subst ha; subst hl
    refine ⟨⟨m.nodes ++ [⟨v, none⟩]⟩,
      ⟨some m.nodes.length, some m.nodes.length, s.size + 1⟩, ?_, ?_, ?_⟩
    · simp [push_front, alloc, hh]
    · refine ⟨?_, ?_, ?_⟩
      · have hg : (⟨m.nodes ++ [⟨v, none⟩]⟩ : Mem T).nodes[m.nodes.length]? =
            some ⟨v, none⟩ := by simp [List.getElem?_concat_length]
        simpa using chain_singleton hg
      · simpa using hsz
      · simp
    · exact ⟨fun i _ hi => List.getElem?_append_left hi,
        fun j hj => Or.inr (by simp at hj; omega), by simp⟩
  · rw [hh] at hch
    have hne : addrs ≠ [] := by
      intro he; rw [he] at hch
      exact Option.noConfusion (chain_nil_inv hch).1
    refine ⟨⟨m.nodes ++ [⟨v, some h⟩]⟩,
      ⟨some m.nodes.length, s.tail, s.size + 1⟩, ?_, ?_, ?_⟩
    · simp [push_front, alloc, hh]
    · refine ⟨?_, ?_, ?_⟩
      · have hg : (⟨m.nodes ++ [⟨v, some h⟩]⟩ : Mem T).nodes[m.nodes.length]? =
            some (⟨v, some h⟩ : NodeM T) := by simp [List.getElem?_concat_length]
        have hrest : Chain (⟨m.nodes ++ [⟨v, some h⟩]⟩ : Mem T) (some h) addrs l :=
          chain_frame hch
            (fun x hx => List.getElem?_append_left (chain_valid hch x hx))
        exact Chain.cons hg hrest
      · simpa using hsz
      · rcases addrs with _ | ⟨b, bs⟩
        · exact absurd rfl hne
        · simpa [List.getLast?_cons_cons] using htl
    · exact ⟨fun i _ hi => List.getElem?_append_left hi,
        fun j hj => by
          rcases List.mem_cons.mp hj with rfl | hj
          · exact Or.inr (le_refl _)
          · exact Or.inl hj,
        by simp⟩

theorem popFront_spec (hw : WfL m s addrs l) (hl : l ≠ []) :
    ∃ s', pop_front m s = .ok (m, s') ∧ WfL m s' addrs.tail l.tail ∧
      OpSpec m addrs m addrs.tail := by
  obtain ⟨hch, hsz, htl⟩ := hw
  rcases hh : s.head with _ | h
  · rw [hh] at hch
    exact absurd (chain_none_inv hch).2 hl
  · rw [hh] at hch
    cases hch with
    | cons hget hc =>
      rename_i nd addrs' l'
      refine ⟨⟨nd.next, if nd.next = none then none else s.tail, s.size - 1⟩,
        ?_, ?_, ?_⟩
      · simp [pop_front, hh, hget]
      · refine ⟨by simpa using hc, by simp [hsz], ?_⟩
        rcases addrs' with _ | ⟨b, bs⟩
        · obtain ⟨hnone, -⟩ := chain_nil_inv hc
          simp [hnone]
        · have hnb : nd.next = some b := chain_cons_head hc
          simp only [hnb]
          rw [if_neg (by simp)]
          simpa [List.getLast?_cons_cons] using htl
      · exact ⟨fun _ _ _ => rfl,
          fun j hj => Or.inl (List.mem_of_mem_tail hj), le_refl _⟩

theorem popBack_spec (hw : WfL m s addrs l) (hl : l ≠ []) :
    ∃ m' s', pop_back m s = .ok (m', s') ∧
      WfL m' s' addrs.dropLast l.dropLast ∧ OpSpec m addrs m' addrs.dropLast := by
  obtain ⟨hch, hsz, htl⟩ := hw
  rcases hh : s.head with _ | h
  · rw [hh] at hch
    exact absurd (chain_none_inv hch).2 hl
  · rw [hh] at hch
    cases hch with
    | cons hget hc =>
      rename_i nd addrs' l'
      rcases addrs' with _ | ⟨b, bs⟩
      · -- single node: head == tail
        obtain ⟨hnone, hlnil⟩ := chain_nil_inv hc
        have htl' : s.tail = some h := by simpa using htl
        refine ⟨m, ⟨none, none, s.size - 1⟩, ?_, ?_, ?_⟩
        · simp [pop_back, hh, htl']
        · subst hlnil
          refine ⟨?_, by simp [hsz], by simp⟩
          simpa using (Chain.nil : Chain m none [] [])
        · exact ⟨fun _ _ _ => rfl, by simp, le_refl _⟩
      · -- at least two nodes
        obtain ⟨t, hgl⟩ := cons_getLast?_some h (b :: bs)
        rw [hgl] at htl
        have hfull : Chain m (some h) (h :: b :: bs) (nd.data :: l') :=
          .cons hget hc
        have hnd := chain_nodup hfull
        have hht : h ≠ t := by
          intro he
          have ht2 : (b :: bs).getLast? = some t := by
            simpa [List.getLast?_cons_cons] using hgl
          have : t ∈ b :: bs := List.mem_of_mem_getLast? ht2
          rw [← he] at this
          exact (List.nodup_cons.mp hnd).1 this
        obtain ⟨p, hpl⟩ := cons_getLast?_some h (b :: bs).dropLast
        have hpl' : (h :: b :: bs).dropLast.getLast? = some p := by
          simpa using hpl
        have hwalk : walkUntilNextEq m (m.nodes.length + 1) h (some t) = some p :=
          walk_finds_penult hfull hpl' hgl (by simp) (m.nodes.length + 1)
            (by have := chain_length_le hfull; simp at this ⊢; omega)
        have hpmem : p ∈ (h :: b :: bs).dropLast :=
          List.mem_of_mem_getLast? hpl'
        have hpmem' : p ∈ h :: b :: bs := List.dropLast_subset _ hpmem
        have hplt : p < m.nodes.length := chain_valid hfull p hpmem'
        refine ⟨setNext m p none, ⟨s.head, some p, s.size - 1⟩, ?_, ?_, ?_⟩
        · simp only [pop_back, hh, htl]
          rw [if_neg (by simpa using hht), hwalk]
        · refine ⟨?_, ?_, ?_⟩
          · rw [hh]
            have := chain_unsnoc hfull hpl'
              (fun x _ hxp => setNext_get_ne hxp)
              (fun ndp hndp => setNext_get_self hndp)
            simpa using this
          · have := chain_length hfull
            simp at this
            simp [hsz]
          · simpa using hpl'.symm
        · refine ⟨?_, ?_, ?_⟩
          · exact fun i hi _ => setNext_get_ne (fun he => hi (he ▸ hpmem'))
          · exact fun j hj => Or.inl (List.dropLast_subset _ hj)
          · simp [setNext_length]

theorem clear_spec (m : Mem T) (s : SLL) (addrs : List Nat) :
    clear m s = (m, emptySLL) ∧ WfL m emptySLL [] [] ∧
      OpSpec m addrs m [] :=
  ⟨rfl, ⟨.nil, rfl, rfl⟩, ⟨fun _ _ _ => rfl, by simp, le_refl _⟩⟩

theorem getHead_spec (hw : WfL m s addrs l) (hl : l ≠ []) :
    getHead m s = .ok (l.head hl) := by
  obtain ⟨hch, -, -⟩ := hw
  rcases hh : s.head with _ | h
  · rw [hh] at hch
    exact absurd (chain_none_inv hch).2 hl
  · rw [hh] at hch
    cases hch with
    | cons hget hc => simp [getHead, hh, hget]

theorem getTail_spec (hw : WfL m s addrs l) (hl : l ≠ []) :
    getTail m s = .ok (l.getLast hl) := by
  obtain ⟨hch, -, htl⟩ := hw
  rcases hla : addrs.getLast? with _ | t
  · rcases addrs with _ | ⟨b, bs⟩
    · rcases l with _ | ⟨x, xs⟩
      · exact absurd rfl hl
      · have := chain_length hch
        simp at this
    · obtain ⟨t, hgl⟩ := cons_getLast?_some b bs
      rw [hgl] at hla
      exact Option.noConfusion hla
  · rw [hla] at htl
    obtain ⟨nd, hget, -, hdata⟩ := chain_getLast hch hla
    rw [List.getLast?_eq_getLast _ hl] at hdata
    injection hdata with hdeq
    simp [getTail, htl, hget, hdeq]

/-! ## Whole-program refinement: sequences of public operations -/

theorem pushAll_spec (vs : List T) :
    ∀ {m : Mem T} {s : SLL} {addrs : List Nat} {l : List T}, WfL m s addrs l →
    ∃ m' s' addrs', pushAll m s vs = .ok (m', s') ∧
      WfL m' s' addrs' (l ++ vs) ∧ OpSpec m addrs m' addrs' := by
  induction vs with
  | nil =>
    intro m s addrs l hw
    exact ⟨m, s, addrs, rfl, by simpa using hw, OpSpec.refl m addrs⟩
  | cons v vs ih =>
    intro m s addrs l hw
    obtain ⟨m1, s1, hok, hw1, hop1⟩ := pushBack_spec hw v
    obtain ⟨m2, s2, addrs2, hok2, hw2, hop2⟩ := ih hw1
    refine ⟨m2, s2, addrs2, ?_, by simpa using hw2, hop1.trans hop2⟩
    simp [pushAll, hok, hok2]

theorem run_spec (ops : List (Op T)) :
    ∀ {m : Mem T} {s : SLL} {addrs : List Nat} {l : List T} {m' : Mem T}
      {s' : SLL}, WfL m s addrs l → run m s ops = .ok (m', s') →
    ∃ addrs' l', WfL m' s' addrs' l' ∧ absRun ops l = some l' ∧
      OpSpec m addrs m' addrs' := by
  induction ops with
  | nil =>
    intro m s addrs l m' s' hw hok
    simp [run] at hok
    obtain ⟨rfl, rfl⟩ := hok
    exact ⟨addrs, l, hw, rfl, OpSpec.refl _ _⟩
  | cons op ops ih =>
    intro m s addrs l m' s' hw hok
    cases op with
    | pushB v =>
      obtain ⟨m1, s1, h1, hw1, hop1⟩ := pushBack_spec hw v
      rw [run, applyOp, h1] at hok
      obtain ⟨addrs', l', hw', habs, hop2⟩ := ih hw1 hok
      exact ⟨addrs', l', hw', by simpa [absRun] using habs, hop1.trans hop2⟩
    | pushF v =>
      obtain ⟨m1, s1, h1, hw1, hop1⟩ := pushFront_spec hw v
      rw [run, applyOp, h1] at hok
      obtain ⟨addrs', l', hw', habs, hop2⟩ := ih hw1 hok
      exact ⟨addrs', l', hw', by simpa [absRun] using habs, hop1.trans hop2⟩
    | popF =>
      rcases hl : l with _ | ⟨x, xs⟩
      · rw [hl] at hw
        obtain ⟨hch, -, -⟩ := hw
        have haddr : addrs = [] := by
          have := chain_length hch
          simpa using List.length_eq_zero.mp (by simpa using this)
        rw [haddr] at hch
        have hh := (chain_nil_inv hch).1
        rw [run, applyOp] at hok
        simp [pop_front, hh] at hok
      · rw [hl] at hw
        obtain ⟨s1, h1, hw1, hop1⟩ := popFront_spec hw (by simp)
        rw [run, applyOp, h1] at hok
        obtain ⟨addrs', l', hw', habs, hop2⟩ := ih hw1 hok
        exact ⟨addrs', l', hw', by simpa [absRun] using habs, hop1.trans hop2⟩
    | popB =>
      rcases hl : l with _ | ⟨x, xs⟩
      · rw [hl] at hw
        obtain ⟨hch, -, -⟩ := hw
        have haddr : addrs = [] := by
          have := chain_length hch
          simpa using List.length_eq_zero.mp (by simpa using this)
        rw [haddr] at hch
        have hh := (chain_nil_inv hch).1
        rw [run, applyOp] at hok
        simp [pop_back, hh] at hok
      · rw [hl] at hw
        obtain ⟨m1, s1, h1, hw1, hop1⟩ := popBack_spec hw (by simp)
        rw [run, applyOp, h1] at hok
        obtain ⟨addrs', l', hw', habs, hop2⟩ := ih hw1 hok
        exact ⟨addrs', l', hw', by simpa [absRun] using habs, hop1.trans hop2⟩
    | doClear =>
      obtain ⟨-, hw1, hop1⟩ := clear_spec m s addrs
      rw [run, applyOp] at hok
      rw [show clear m s = (m, emptySLL) from rfl] at hok
      obtain ⟨addrs', l', hw', habs, hop2⟩ := ih hw1 hok
      exact ⟨addrs', l', hw', by simpa [absRun] using habs, hop1.trans hop2⟩

theorem absRun_count (ops : List (Op T)) :
    ∀ l l' : List T, (∀ op ∈ ops, op ≠ Op.doClear) → absRun ops l = some l' →
    l'.length + countRemoves ops = l.length + countAdds ops := by
  induction ops with
  | nil =>
    intro l l' _ h
    simp [absRun] at h
    subst h
    simp [countAdds, countRemoves]
  | cons op ops ih =>
    intro l l' hnc h
    have hnc' : ∀ x ∈ ops, x ≠ Op.doClear := fun x hx => hnc x (by simp [hx])
    cases op with
    | pushB v =>
      have hh := ih _ _ hnc' (by simpa [absRun] using h)
      simp only [List.length_append, List.length_cons, List.length_nil] at hh
      simp only [countAdds, countRemoves]
      omega
    | pushF v =>
      have hh := ih _ _ hnc' (by simpa [absRun] using h)
      simp only [List.length_cons] at hh
      simp only [countAdds, countRemoves]
      omega
    | popF =>
      rcases l with _ | ⟨x, xs⟩
      · simp [absRun] at h
      · have hh := ih _ _ hnc' (by simpa [absRun] using h)
        simp only [countAdds, countRemoves, List.length_cons]
        omega
    | popB =>
      rcases l with _ | ⟨x, xs⟩
      · simp [absRun] at h
      · have hh := ih _ _ hnc' (by simpa [absRun] using h)
        simp only [List.length_dropLast, List.length_cons] at hh
        simp only [countAdds, countRemoves, List.length_cons]
        omega
    | doClear => exact absurd rfl (hnc _ (by simp))

/-- Cells of a chain disjoint from an operation's footprint are intact,
so the chain survives. -/
theorem chain_preserved_of_opSpec {m1 m2 : Mem T}
    {aAddrs bAddrs bAddrs' : List Nat} {al : List T}
    (hch : Chain m1 o aAddrs al) (hop : OpSpec m1 bAddrs m2 bAddrs')
    (hdisj : ∀ x ∈ aAddrs, x ∉ bAddrs) :
    Chain m2 o aAddrs al :=
  chain_frame hch
    (fun x hx => hop.frame x (hdisj x hx) (chain_valid hch x hx))

/-! ## The claims -/

/-- Claim C1 (code bug): the structural invariants do NOT hold after
every normally-completing public operation.  Starting from the empty
list, `push_back 1` yields a well-formed one-node list, but
`insert_before` with a null position (the `end()` iterator) then
completes normally while leaving `tail` pointing at the old last node:
the stale tail's `next` is non-null and `tail` is no longer the node
reached from `head` in `size - 1` steps, so no chain can reconcile the
three fields.  The tail-update condition in the source
(`current->next.get() == tail`, line 268) compares the fresh node's
address with the old tail and is never true. -/
theorem c1_invariant_broken_by_insert_before_null :
    pushAll (mem0 Int) emptySLL [1] =
      .ok (⟨[⟨1, none⟩]⟩, ⟨some 0, some 0, 1⟩) ∧
    insert_before (⟨[⟨1, none⟩]⟩ : Mem Int) ⟨some 0, some 0, 1⟩ none 2 =
      .ok (⟨[⟨1, some 1⟩, ⟨2, none⟩]⟩, ⟨some 0, some 0, 2⟩) ∧
    structuralInvariant (⟨[⟨1, none⟩]⟩ : Mem Int) ⟨some 0, some 0, 1⟩ ∧
    ¬ structuralInvariant (⟨[⟨1, some 1⟩, ⟨2, none⟩]⟩ : Mem Int)
        ⟨some 0, some 0, 2⟩ := by
  refine ⟨rfl, rfl, ⟨by simp, by simp, [0], [1], ?_, rfl, rfl⟩, ?_⟩
  · exact chain_singleton rfl
  · rintro ⟨-, -, addrs, l, hch, hlen, hlast⟩
    have hreal : Chain (⟨[⟨1, some 1⟩, ⟨2, none⟩]⟩ : Mem Int)
        (some 0) [0, 1] [1, 2] :=
      @Chain.cons Int ⟨[⟨1, some 1⟩, ⟨2, none⟩]⟩ 0 ⟨1, some 1⟩ [1] [2] rfl
        (@Chain.cons Int ⟨[⟨1, some 1⟩, ⟨2, none⟩]⟩ 1 ⟨2, none⟩ [] [] rfl .nil)
    obtain ⟨ha, -⟩ := chain_det hch hreal
    rw [ha] at hlast
    simp at hlast

/-- Claim C2 (code bug): converting `[1,2,3]` to a fixed array of
capacity 5 under the pad policy yields `[0,0,0,0,0]`, not
`[1,2,3,0,0]`: after copying the elements the source executes
`arr.fill(T())` (line 434), which overwrites the whole array — the
already-copied prefix included — with default values.  The result is
independent of the indeterminate initial array contents `a..e`. -/
theorem c2_to_array_pad_fills_everything :
    pushAll (mem0 Int) emptySLL [1, 2, 3] =
      .ok (⟨[⟨1, some 1⟩, ⟨2, some 2⟩, ⟨3, none⟩]⟩, ⟨some 0, some 2, 3⟩) ∧
    (∀ a b c d e : Int,
      to_array_pad (⟨[⟨1, some 1⟩, ⟨2, some 2⟩, ⟨3, none⟩]⟩ : Mem Int)
        ⟨some 0, some 2, 3⟩ 5 [a, b, c, d, e] = .ok [0, 0, 0, 0, 0]) ∧
    ([0, 0, 0, 0, 0] : List Int) ≠ [1, 2, 3, 0, 0] := by
  refine ⟨rfl, fun a b c d e => rfl, by decide⟩

/-- Claim C3 (code bug): `erase_before` on the node at index 1 (the
second node) of the list `[10, 20]` must, per the claim, remove element
0 and decrement the size; instead the walk stops with `prev` still
null and the body guarded by `if (prev)` (line 292) is skipped, so the
call completes normally, erases nothing, and leaves the list bit-for-bit
unchanged (still `[10, 20]`, size 2). -/
theorem c3_erase_before_second_node_silent_noop :
    pushAll (mem0 Int) emptySLL [10, 20] =
      .ok (⟨[⟨10, some 1⟩, ⟨20, none⟩]⟩, ⟨some 0, some 1, 2⟩) ∧
    erase_before (⟨[⟨10, some 1⟩, ⟨20, none⟩]⟩ : Mem Int)
        ⟨some 0, some 1, 2⟩ (some 1) =
      .ok (⟨[⟨10, some 1⟩, ⟨20, none⟩]⟩, ⟨some 0, some 1, 2⟩) ∧
    to_vector (⟨[⟨10, some 1⟩, ⟨20, none⟩]⟩ : Mem Int) ⟨some 0, some 1, 2⟩ =
      [10, 20] ∧
    (⟨some 0, some 1, 2⟩ : SLL).size = 2 := by
  exact ⟨rfl, rfl, rfl, rfl⟩

/-- Claim C4 (confirmed): on an empty list — head null, tail null,
size 0 — `pop_front`, `pop_back`, `getHead` and `getTail` each fail
with their empty-container error.  In the source each of these throws
before touching any field (lines 212-214, 235-237, 316-318, 328-330),
so the failing call leaves the list exactly in its prior state; in the
model this is reflected by the operations returning an error and no
successor state. -/
theorem c4_empty_list_operations_fail (m : Mem T) (s : SLL)
    (hh : s.head = none) (ht : s.tail = none) (hs : s.size = 0) :
    pop_front m s = .error .emptyPopFront ∧
    pop_back m s = .error .emptyPopBack ∧
    getHead m s = .error .emptyAccessHead ∧
    getTail m s = .error .emptyAccessTail ∧
    s = emptySLL := by
  refine ⟨?_, ?_, ?_, ?_, ?_⟩
  · simp [pop_front, hh]
  · simp [pop_back, hh]
  · simp [getHead, hh]
  · simp [getTail, ht]
  · cases s
    simp_all [emptySLL]

/-- Witness for C4 at the default-constructed list. -/
theorem c4_witness :
    (emptySLL.head = none ∧ emptySLL.tail = none ∧ emptySLL.size = 0) ∧
    (pop_front (mem0 Int) emptySLL = .error .emptyPopFront ∧
     pop_back (mem0 Int) emptySLL = .error .emptyPopBack ∧
     getHead (mem0 Int) emptySLL = .error .emptyAccessHead ∧
     getTail (mem0 Int) emptySLL = .error .emptyAccessTail ∧
     emptySLL = emptySLL) :=
  ⟨⟨rfl, rfl, rfl⟩, c4_empty_list_operations_fail (mem0 Int) emptySLL rfl rfl rfl⟩

/-- Claim C5 (confirmed, modelled from the spec): the equality
comparison — same size and elementwise-equal in traversal order — is
reflexive and symmetric, and distinguishes `[1,2,3]` from `[3,2,1]`
(same length, different order) and `[1,2]` from `[1,2,3]` (different
length).  `operator==` is called by the repository test but not defined
in the sources, so `listEq` is modelled from the spec sentence. -/
theorem c5_equality_reflexive_symmetric_order_length :
    (∀ (m : Mem Int) (s : SLL), listEq m s m s = true) ∧
    (∀ (m1 : Mem Int) (s1 : SLL) (m2 : Mem Int) (s2 : SLL),
      listEq m1 s1 m2 s2 = listEq m2 s2 m1 s1) ∧
    (∀ (m1 : Mem Int) (s1 : SLL) (m2 : Mem Int) (s2 : SLL),
      listEq m1 s1 m2 s2 = true ↔
        (s1.size = s2.size ∧ traverse m1 s1.head = traverse m2 s2.head)) ∧
    pushAll (mem0 Int) emptySLL [1, 2, 3] =
      .ok (⟨[⟨1, some 1⟩, ⟨2, some 2⟩, ⟨3, none⟩]⟩, ⟨some 0, some 2, 3⟩) ∧
    pushAll (mem0 Int) emptySLL [3, 2, 1] =
      .ok (⟨[⟨3, some 1⟩, ⟨2, some 2⟩, ⟨1, none⟩]⟩, ⟨some 0, some 2, 3⟩) ∧
    pushAll (mem0 Int) emptySLL [1, 2] =
      .ok (⟨[⟨1, some 1⟩, ⟨2, none⟩]⟩, ⟨some 0, some 1, 2⟩) ∧
    listEq (⟨[⟨1, some 1⟩, ⟨2, some 2⟩, ⟨3, none⟩]⟩ : Mem Int)
        ⟨some 0, some 2, 3⟩
        ⟨[⟨3, some 1⟩, ⟨2, some 2⟩, ⟨1, none⟩]⟩ ⟨some 0, some 2, 3⟩ = false ∧
    listEq (⟨[⟨1, some 1⟩, ⟨2, none⟩]⟩ : Mem Int) ⟨some 0, some 1, 2⟩
        (⟨[⟨1, some 1⟩, ⟨2, some 2⟩, ⟨3, none⟩]⟩ : Mem Int)
        ⟨some 0, some 2, 3⟩ = false := by
  refine ⟨?_, ?_, ?_, rfl, rfl, rfl, by decide, by decide⟩
  · intro m s
    simp [listEq]
  · intro m1 s1 m2 s2
    simp only [listEq]
    congr 1
    · rw [decide_eq_decide]
      exact eq_comm
    · rw [decide_eq_decide]
      exact eq_comm
  · intro m1 s1 m2 s2
    simp [listEq]

/-- Claim C6 (confirmed): the dynamic-array round-trip is the
identity, for every well-formed list including the empty list:
`to_vector` collects the traversal, and assigning the resulting vector
to any list (`operator=` clears it and `push_back`s every elementorderly)
yields a list with the same elements in traversal order and the same
size as the original. -/
theorem c6_vector_roundtrip_identity {addrs : List Nat} {l : List T}
    (hw : WfL m s addrs l) (m0 : Mem T) (s0 : SLL) :
    roundTripConcl m s m0 s0 := by
  obtain ⟨hch, hsz, htl⟩ := hw
  have htr : to_vector m s = l := traverse_of_chain hch
  have hwe : WfL m0 emptySLL [] [] := ⟨Chain.nil, rfl, rfl⟩
  obtain ⟨m1, t, addrs1, hok, hw1, -⟩ := pushAll_spec (to_vector m s) hwe
  refine ⟨m1, t, hok, ?_, ?_⟩
  · rw [traverse_of_chain hw1.1, htr, traverse_of_chain hch]
    simp
  · rw [hw1.2.1, htr, hsz]
    simp

/-- Witness for C6: round-tripping the one-element list `[1]` into the
default-constructed list. -/
theorem c6_witness :
    WfL (⟨[⟨1, none⟩]⟩ : Mem Int) ⟨some 0, some 0, 1⟩ [0] [1] ∧
    roundTripConcl (⟨[⟨1, none⟩]⟩ : Mem Int) ⟨some 0, some 0, 1⟩
      (mem0 Int) emptySLL :=
  have hwf : WfL (⟨[⟨1, none⟩]⟩ : Mem Int) ⟨some 0, some 0, 1⟩ [0] [1] :=
    ⟨chain_singleton rfl, rfl, rfl⟩
  ⟨hwf, c6_vector_roundtrip_identity hwf (mem0 Int) emptySLL⟩

/-- Claim C7 (confirmed): move construction and move assignment (for
distinct objects) transfer the whole chain — the destination is
well-formed over the very same heap cells, so no element is duplicated
or destroyed — and the moved-from source ends with null head, null
tail and size 0. -/
theorem c7_move_transfers_chain_and_empties_source {addrs : List Nat}
    {l : List T} (hw : WfL m s addrs l) (b : SLL) :
    moveConcl m addrs l s (moveCtor s) ∧
    moveConcl m addrs l s (moveAssign b s) := by
  obtain ⟨hch, hsz, htl⟩ := hw
  exact ⟨⟨rfl, ⟨hch, hsz, htl⟩, rfl, rfl, rfl, rfl, rfl⟩,
         ⟨rfl, ⟨hch, hsz, htl⟩, rfl, rfl, rfl, rfl, rfl⟩⟩

/-- Witness for C7: moving the one-element list `[1]` (also assigning
it over the empty list). -/
theorem c7_witness :
    WfL (⟨[⟨1, none⟩]⟩ : Mem Int) ⟨some 0, some 0, 1⟩ [0] [1] ∧
    (moveConcl (⟨[⟨1, none⟩]⟩ : Mem Int) [0] [1] ⟨some 0, some 0, 1⟩
      (moveCtor ⟨some 0, some 0, 1⟩) ∧
     moveConcl (⟨[⟨1, none⟩]⟩ : Mem Int) [0] [1] ⟨some 0, some 0, 1⟩
      (moveAssign emptySLL ⟨some 0, some 0, 1⟩)) :=
  have hwf : WfL (⟨[⟨1, none⟩]⟩ : Mem Int) ⟨some 0, some 0, 1⟩ [0] [1] :=
    ⟨chain_singleton rfl, rfl, rfl⟩
  ⟨hwf, c7_move_transfers_chain_and_empties_source hwf emptySLL⟩

/-- Claim C8 (confirmed): the copy constructor builds a chain with the
same size and elements out of exclusively fresh cells, so after any
successful sequence of mutations (appends, prepends, removes, clear)
applied to the copy, the original list's chain, elements and size are
untouched. -/
theorem c8_copy_is_deep_and_independent {a : SLL} {aAddrs : List Nat}
    {al : List T} (hw : WfL m a aAddrs al) (ops : List (Op T))
    {m1 m2 : Mem T} {b b' : SLL}
    (hcopy : copyCtor m a = .ok (m1, b))
    (hrun : run m1 b ops = .ok (m2, b')) :
    copyConcl m a aAddrs al m1 b m2 := by
  obtain ⟨hch, hsz, htl⟩ := hw
  have htr : traverse m a.head = al := traverse_of_chain hch
  have hwe : WfL m emptySLL [] [] := ⟨Chain.nil, rfl, rfl⟩
  obtain ⟨m1', b1, bAddrs, hok, hw1, hop1⟩ :=
    pushAll_spec (traverse m a.head) hwe
  rw [copyCtor, hok] at hcopy
  have hpair : (m1', b1) = (m1, b) := by injection hcopy
  injection hpair with hm hb
  subst hm; subst hb
  have hdisj : ∀ x ∈ aAddrs, x ∉ bAddrs := by
    intro x hx hxb
    rcases hop1.sub x hxb with hmem | hge
    · exact List.not_mem_nil x hmem
    · exact absurd (chain_valid hch x hx) (by omega)
  have hch1 : Chain m1' a.head aAddrs al :=
    chain_preserved_of_opSpec hch hop1
      (fun x _ hmem => List.not_mem_nil x hmem)
  obtain ⟨addrs2, l2, hw2, -, hop2⟩ := run_spec ops hw1 hrun
  have hch2 : Chain m2 a.head aAddrs al :=
    chain_preserved_of_opSpec hch1 hop2 hdisj
  refine ⟨?_, ?_, ⟨hch2, hsz, htl⟩, ?_⟩
  · rw [hw1.2.1, htr, hsz]
    simp
  · rw [traverse_of_chain hw1.1, htr]
    simp
  · rw [traverse_of_chain hch2, htr]

/-- Witness for C8: copy the list `[10, 20]`, then append 7, remove the
first element and clear the copy; the original still traverses to
`[10, 20]`. -/
theorem c8_witness :
    WfL (⟨[⟨10, some 1⟩, ⟨20, none⟩]⟩ : Mem Int) ⟨some 0, some 1, 2⟩
      [0, 1] [10, 20] ∧
    copyCtor (⟨[⟨10, some 1⟩, ⟨20, none⟩]⟩ : Mem Int) ⟨some 0, some 1, 2⟩ =
      .ok (⟨[⟨10, some 1⟩, ⟨20, none⟩, ⟨10, some 3⟩, ⟨20, none⟩]⟩,
           ⟨some 2, some 3, 2⟩) ∧
    run (⟨[⟨10, some 1⟩, ⟨20, none⟩, ⟨10, some 3⟩, ⟨20, none⟩]⟩ : Mem Int)
        ⟨some 2, some 3, 2⟩ [.pushB 7, .popF, .doClear] =
      .ok (⟨[⟨10, some 1⟩, ⟨20, none⟩, ⟨10, some 3⟩, ⟨20, some 4⟩,
             ⟨7, none⟩]⟩, ⟨none, none, 0⟩) ∧
    copyConcl (⟨[⟨10, some 1⟩, ⟨20, none⟩]⟩ : Mem Int) ⟨some 0, some 1, 2⟩
      [0, 1] [10, 20]
      ⟨[⟨10, some 1⟩, ⟨20, none⟩, ⟨10, some 3⟩, ⟨20, none⟩]⟩
      ⟨some 2, some 3, 2⟩
      ⟨[⟨10, some 1⟩, ⟨20, none⟩, ⟨10, some 3⟩, ⟨20, some 4⟩, ⟨7, none⟩]⟩ :=
  have hwf : WfL (⟨[⟨10, some 1⟩, ⟨20, none⟩]⟩ : Mem Int)
      ⟨some 0, some 1, 2⟩ [0, 1] [10, 20] :=
    ⟨@Chain.cons Int ⟨[⟨10, some 1⟩, ⟨20, none⟩]⟩ 0 ⟨10, some 1⟩ [1] [20] rfl
        (@Chain.cons Int ⟨[⟨10, some 1⟩, ⟨20, none⟩]⟩ 1 ⟨20, none⟩ [] []
          rfl .nil), rfl, rfl⟩
  ⟨hwf, rfl, rfl,
    c8_copy_is_deep_and_independent hwf [.pushB 7, .popF, .doClear] rfl rfl⟩

/-- Claim C9 (confirmed): for every sequence of `push_back`,
`push_front`, `pop_front`, `pop_back` starting from the empty list that
never removes from an empty list (equivalently: that runs to
completion), the size equals the number of adds minus the number of
removes and `getHead`/`getTail` return the first/last element of the
traversal; and the concrete scenario
`append 1; append 2; prepend 0; removeFirst; removeLast` passes through
`[0,1,2]` (size 3), `[1,2]`, and `[1]` with head = tail = 1. -/
theorem c9_operation_sequences (ops : List (Op Int)) {m' : Mem Int}
    {s' : SLL} (hnc : ∀ op ∈ ops, op ≠ Op.doClear)
    (hok : run (mem0 Int) emptySLL ops = .ok (m', s')) :
    runConcl ops m' s' ∧
    (run (mem0 Int) emptySLL [.pushB 1, .pushB 2, .pushF 0] =
       .ok (⟨[⟨1, some 1⟩, ⟨2, none⟩, ⟨0, some 0⟩]⟩, ⟨some 2, some 1, 3⟩) ∧
     traverse (⟨[⟨1, some 1⟩, ⟨2, none⟩, ⟨0, some 0⟩]⟩ : Mem Int) (some 2) =
       [0, 1, 2] ∧
     run (mem0 Int) emptySLL [.pushB 1, .pushB 2, .pushF 0, .popF] =
       .ok (⟨[⟨1, some 1⟩, ⟨2, none⟩, ⟨0, some 0⟩]⟩, ⟨some 0, some 1, 2⟩) ∧
     traverse (⟨[⟨1, some 1⟩, ⟨2, none⟩, ⟨0, some 0⟩]⟩ : Mem Int) (some 0) =
       [1, 2] ∧
     run (mem0 Int) emptySLL [.pushB 1, .pushB 2, .pushF 0, .popF, .popB] =
       .ok (⟨[⟨1, none⟩, ⟨2, none⟩, ⟨0, some 0⟩]⟩, ⟨some 0, some 0, 1⟩) ∧
     traverse (⟨[⟨1, none⟩, ⟨2, none⟩, ⟨0, some 0⟩]⟩ : Mem Int) (some 0) =
       [1] ∧
     getHead (⟨[⟨1, none⟩, ⟨2, none⟩, ⟨0, some 0⟩]⟩ : Mem Int)
       ⟨some 0, some 0, 1⟩ = .ok 1 ∧
     getTail (⟨[⟨1, none⟩, ⟨2, none⟩, ⟨0, some 0⟩]⟩ : Mem Int)
       ⟨some 0, some 0, 1⟩ = .ok 1) := by
  obtain ⟨addrs', l', hw', habs, -⟩ :=
    run_spec ops ⟨Chain.nil, rfl, rfl⟩ hok
  have hcount := absRun_count ops [] l' hnc habs
  simp only [List.length_nil] at hcount
  have htr : traverse m' s'.head = l' := traverse_of_chain hw'.1
  have hsz := hw'.2.1
  refine ⟨⟨by omega, by omega, ?_, ?_⟩, rfl, rfl, rfl, rfl, rfl, rfl, rfl, rfl⟩
  · rw [htr, hsz]
  · intro hl
    simp only [htr] at hl ⊢
    exact ⟨getHead_spec hw' hl, getTail_spec hw' hl⟩

/-- Witness for C9 at the sequence `append 1; append 2; prepend 0`. -/
theorem c9_witness :
    ((∀ op ∈ ([.pushB 1, .pushB 2, .pushF 0] : List (Op Int)),
        op ≠ Op.doClear) ∧
     run (mem0 Int) emptySLL [.pushB 1, .pushB 2, .pushF 0] =
       .ok (⟨[⟨1, some 1⟩, ⟨2, none⟩, ⟨0, some 0⟩]⟩, ⟨some 2, some 1, 3⟩)) ∧
    runConcl [.pushB 1, .pushB 2, .pushF 0]
      (⟨[⟨1, some 1⟩, ⟨2, none⟩, ⟨0, some 0⟩]⟩ : Mem Int)
      ⟨some 2, some 1, 3⟩ :=
  ⟨⟨by decide, rfl⟩,
   (c9_operation_sequences [.pushB 1, .pushB 2, .pushF 0]
     (by decide) rfl).1⟩

/-- Claim C10 (confirmed): on every well-formed nonempty list,
`insert_before` with a null target (the `end()` position) does not
raise PositionNotFound: it links the new value after the last chain
node and increments the size, while `tail` keeps pointing at the
previous last node, so `getTail` afterwards returns the old last
element rather than the inserted one. -/
theorem c10_insert_before_null_appends_but_keeps_tail {addrs : List Nat}
    {l : List T} (hw : WfL m s addrs l) (hl : l ≠ []) (v : T) :
    insertNullConcl m s l hl v := by
  obtain ⟨hch, hsz, htl⟩ := hw
  rcases hh : s.head with _ | h
  · rw [hh] at hch
    exact absurd (chain_none_inv hch).2 hl
  · rw [hh] at hch
    cases hch with
    | cons hget hc =>
      rename_i nd addrs' l'
      obtain ⟨t, hgl⟩ := cons_getLast?_some h addrs'
      rw [hgl] at htl
      have hfull : Chain m (some h) (h :: addrs') (nd.data :: l') :=
        .cons hget hc
      have htmem : t ∈ h :: addrs' := List.mem_of_mem_getLast? hgl
      have htlt : t < m.nodes.length := chain_valid hfull t htmem
      have hnamem : m.nodes.length ∉ h :: addrs' := fun hm =>
        absurd (chain_valid hfull _ hm) (by omega)
      have hfind : findPredOf m (m.nodes.length + 1) (some h) none = .ok t :=
        findPredOf_none_spec hfull hgl (m.nodes.length + 1)
          (by have := chain_length_le hfull; simp at this; omega)
      obtain ⟨ndt, hgt, hnt, hdt⟩ := chain_getLast hfull hgl
      set na := m.nodes.length with hna
      set m1 : Mem T := ⟨m.nodes ++ [⟨v, ndt.next⟩]⟩ with hm1
      set m2 := setNext m1 t (some na) with hm2
      have hget1 : ∀ i, i < m.nodes.length → m1.nodes[i]? = m.nodes[i]? :=
        fun i hi => List.getElem?_append_left hi
      refine ⟨m2, ⟨s.head, s.tail, s.size + 1⟩, ?_, rfl, rfl, rfl, ?_, ?_⟩
      · simp only [insert_before, hh]
        rw [if_neg (by simp), hfind]
        simp only [hgt, alloc]
        rw [htl, if_neg (by simp; omega)]
      · have hchain2 : Chain m2 (some h) ((h :: addrs') ++ [na])
            ((nd.data :: l') ++ [v]) := by
          refine chain_snoc hfull hgl hnamem ?_ ?_ ?_
          · exact fun x hx hxt =>
              (setNext_get_ne hxt).trans (hget1 x (chain_valid hfull x hx))
          · intro ndx hndx
            exact setNext_get_self ((hget1 t htlt).trans hndx)
          · have h1 : m1.nodes[na]? = some ⟨v, none⟩ := by
              rw [hm1, hna, ← hnt]
              exact List.getElem?_concat_length _ _
            exact (setNext_get_ne (by omega)).trans h1
        show traverse m2 s.head = (nd.data :: l') ++ [v]
        rw [hh]
        exact traverse_of_chain hchain2
      · show getTail m2 ⟨s.head, s.tail, s.size + 1⟩ =
          .ok ((nd.data :: l').getLast hl)
        have hgt2 : m2.nodes[t]? = some ⟨ndt.data, some na⟩ :=
          setNext_get_self ((hget1 t htlt).trans hgt)
        rw [List.getLast?_eq_getLast _ hl] at hdt
        injection hdt with hdeq
        simp [getTail, htl, hgt2, hdeq]

/-- Witness for C10: inserting 2 before the null position of the
one-element list `[1]`. -/
theorem c10_witness :
    (WfL (⟨[⟨1, none⟩]⟩ : Mem Int) ⟨some 0, some 0, 1⟩ [0] [1] ∧
     ([1] : List Int) ≠ []) ∧
    insertNullConcl (⟨[⟨1, none⟩]⟩ : Mem Int) ⟨some 0, some 0, 1⟩
      [1] (by decide) 2 :=
  have hwf : WfL (⟨[⟨1, none⟩]⟩ : Mem Int) ⟨some 0, some 0, 1⟩ [0] [1] :=
    ⟨chain_singleton rfl, rfl, rfl⟩
  ⟨⟨hwf, by decide⟩,
   c10_insert_before_null_appends_but_keeps_tail hwf (by decide) 2⟩

end SLLC
